import Mathlib

/-!
Shallow embedding of `cutoff_common`'s preallocated append buffer
(`src/util/lang_util/prealloc_vec.rs`, `PreallocatedVec<T, C>`) and of the
running-average buffer (`src/collections/averaging_buffer.rs`,
`AveragingBuffer`), together with proofs about the claims of the
specification.

The Rust buffer stores a `Vec<T>` plus a logical cursor `back_index` inside
an `UnsafeCell`; every operation is a bounded synchronous state mutation, so
the embedding is explicit state passing on a record.  The backing `Vec<T>`
is modelled as a `List` of its filled slots (`Vec::len` = `items.length`)
together with its allocation capacity (`Vec::capacity` = `cap`), because
`PreallocatedVec::capacity` reads `Vec::capacity` in the source.  Machine
`usize` values stay `Nat`; the only places where the 64-bit width matters
(`saturating_add` / `saturating_sub` in the averaging buffer) saturate
explicitly at `2 ^ 64 - 1`.
-/

namespace CutoffCommon

/-- The maximum `usize` value on a 64-bit target. -/
def usizeMax : Nat := 2 ^ 64 - 1

/-- Rust `usize::saturating_add`. -/
def satAdd (a b : Nat) : Nat := min (a + b) usizeMax

/-- Rust `usize::saturating_sub`; on `Nat` truncated subtraction is exactly
saturating subtraction. -/
def satSub (a b : Nat) : Nat := a - b

/-! ## The Rust `Vec` primitives the buffer relies on

`PreallocatedVec` calls `Vec::push` and `Vec::resize_with`, and its
`capacity()` accessor returns `Vec::capacity()`, so the allocation-capacity
bookkeeping of the Rust standard library is part of the observable
behaviour.  Rust's `RawVec::grow_amortized` computes the new capacity as
`max(MIN_NON_ZERO_CAP, max(2 * cap, required))`, with
`MIN_NON_ZERO_CAP = 4` for element sizes in `(1, 1024]` bytes (the repo
instantiates the buffer at `usize`, 8 bytes).  `Vec::with_capacity(c)`
allocates exactly `c` slots, and `Vec::truncate` never shrinks the
allocation. -/

/-- Rust `RawVec::MIN_NON_ZERO_CAP` for element sizes in `(1, 1024]` bytes. -/
def minNonZeroCap : Nat := 4

/-- Rust `RawVec::grow_amortized`: the allocation capacity chosen when `required`
slots are needed but only `cap` are allocated. -/
def growAmortized (cap required : Nat) : Nat :=
  max minNonZeroCap (max (2 * cap) required)

/-- Rust `Vec::push` on a vector with filled slots `items` and allocation
capacity `cap`: appends the element, growing the allocation amortizedly
when it is full.  Returns the new filled slots and the new allocation
capacity. -/
def vecPush {α : Type} (items : List α) (cap : Nat) (x : α) : List α × Nat :=
  if items.length < cap then (items ++ [x], cap)
  else (items ++ [x], growAmortized cap (items.length + 1))

/-- Rust `Vec::resize_with(n, f)` for a pure closure `f` (modelled by the value
it returns): truncates to `n` slots when shrinking (allocation unchanged),
or appends `f`-produced slots when growing, reserving amortizedly when the
allocation is too small. -/
def vecResizeWith {α : Type} (items : List α) (cap : Nat) (n : Nat) (f : α) :
    List α × Nat :=
  if n ≤ items.length then (items.take n, cap)
  else (items ++ List.replicate (n - items.length) f,
        if n ≤ cap then cap else growAmortized cap n)

/-! ## `PreallocatedVec<T, C>` -/

/-- State of a `PreallocatedVec<T, C>`: the backing `Vec`'s filled slots
(`items`, i.e. `Vec::len` many) and allocation capacity (`cap`, i.e.
`Vec::capacity`), the logical cursor `back_index`, and the caller-supplied
factory `creation_fn`.  The factory is a `Fn() -> T` closure; a pure such
closure returns the same value at every call, so it is modelled by that
value. -/
structure PreallocatedVec (α : Type) where
  items : List α
  cap : Nat
  back_index : Nat
  creation_fn : α
  deriving Repr, DecidableEq

namespace PreallocatedVec

variable {α : Type}

/-- Rust `PreallocatedVec::capacity`: returns `Vec::capacity()` of the store. -/
def capacity (v : PreallocatedVec α) : Nat := v.cap

/-- Rust `PreallocatedVec::set_capacity`: `resize_with(capacity, creation_fn)`
then clamp `back_index` to the new capacity. -/
def set_capacity (v : PreallocatedVec α) (n : Nat) : PreallocatedVec α :=
  { v with items := (vecResizeWith v.items v.cap n v.creation_fn).1,
           cap := (vecResizeWith v.items v.cap n v.creation_fn).2,
           back_index := min v.back_index n }

/-- Rust `PreallocatedVec::with_capacity`: a `Vec::with_capacity(c)` store (no
filled slots, allocation exactly `c`) with `back_index = 0`, then
`set_capacity(c)` pre-fills the `c` slots via the factory. -/
def with_capacity (c : Nat) (cfn : α) : PreallocatedVec α :=
  set_capacity ⟨[], c, 0, cfn⟩ c

/-- Rust `PreallocatedVec::raw_slice`: the whole physical store. -/
def raw_slice (v : PreallocatedVec α) : List α := v.items

/-- Rust `PreallocatedVec::len`: the logical length. -/
def len (v : PreallocatedVec α) : Nat := v.back_index

/-- Rust `PreallocatedVec::clear`: resets `back_index` to `0` and nothing else. -/
def clear (v : PreallocatedVec α) : PreallocatedVec α :=
  { v with back_index := 0 }

/-- Rust `PreallocatedVec::get`: `items.get(index)` guarded by
`index < back_index`. -/
def get (v : PreallocatedVec α) (index : Nat) : Option α :=
  if index < v.back_index then v.items[index]? else none

/-- Rust `PreallocatedVec::get_mut`: same bound check and slot lookup as `get`
(the returned reference is modelled by the slot's value). -/
def get_mut (v : PreallocatedVec α) (index : Nat) : Option α :=
  if index < v.back_index then v.items[index]? else none

/-- Rust `PreallocatedVec::last`: reads `items.len()` — the PHYSICAL store
length — and returns the slot at `items.len() - 1` unless the store is
physically empty. -/
def last (v : PreallocatedVec α) : Option α :=
  if v.items.length = 0 then none else v.items[v.items.length - 1]?

/-- Rust `PreallocatedVec::last_mut`: same physical-length read as `last`. -/
def last_mut (v : PreallocatedVec α) : Option α :=
  if v.items.length = 0 then none else v.items[v.items.length - 1]?

/-- Rust `PreallocatedVec::last_index`: `Some(len() - 1)` unless the LOGICAL
length is `0`. -/
def last_index (v : PreallocatedVec α) : Option Nat :=
  if v.len = 0 then none else some (v.len - 1)

/-- Rust `PreallocatedVec::push`: overwrite the slot at `back_index` when one
exists (`items.get_mut(back_index)` succeeds iff
`back_index < items.len()`), otherwise `Vec::push`; then increment
`back_index`. -/
def push (v : PreallocatedVec α) (new_item : α) : PreallocatedVec α :=
  if v.back_index < v.items.length then
    { v with items := v.items.set v.back_index new_item,
             back_index := v.back_index + 1 }
  else
    { v with items := (vecPush v.items v.cap new_item).1,
             cap := (vecPush v.items v.cap new_item).2,
             back_index := v.back_index + 1 }

/-- Rust `PreallocatedVec::push_prealloc`: apply the callback in place to the
slot at `back_index` when one exists (the mutation persists even on abort),
or to a fresh factory-made element otherwise (discarded on abort);
increment `back_index` only when the callback returns `true`.  The
`Fn(&mut T) -> bool` callback is modelled as `α → α × Bool`: the mutated
value and the success flag. -/
def push_prealloc (v : PreallocatedVec α) (copy_fn : α → α × Bool) :
    PreallocatedVec α :=
  if h : v.back_index < v.items.length then
    if (copy_fn (v.items.get ⟨v.back_index, h⟩)).2 then
      { v with items := v.items.set v.back_index
                 (copy_fn (v.items.get ⟨v.back_index, h⟩)).1,
               back_index := v.back_index + 1 }
    else
      { v with items := v.items.set v.back_index
                 (copy_fn (v.items.get ⟨v.back_index, h⟩)).1 }
  else
    if (copy_fn v.creation_fn).2 then
      { v with items := (vecPush v.items v.cap (copy_fn v.creation_fn).1).1,
               cap := (vecPush v.items v.cap (copy_fn v.creation_fn).1).2,
               back_index := v.back_index + 1 }
    else v

/-- Push every element of `xs` in order. -/
def pushAll (v : PreallocatedVec α) (xs : List α) : PreallocatedVec α :=
  xs.foldl push v

/-- States reachable from a `with_capacity` construction through the
buffer's mutating API. -/
inductive Reachable : PreallocatedVec α → Prop where
  | init (c : Nat) (cfn : α) : Reachable (with_capacity c cfn)
  | push (v : PreallocatedVec α) (x : α) : Reachable v → Reachable (v.push x)
  | push_prealloc (v : PreallocatedVec α) (f : α → α × Bool) :
      Reachable v → Reachable (v.push_prealloc f)
  | clear (v : PreallocatedVec α) : Reachable v → Reachable v.clear
  | set_capacity (v : PreallocatedVec α) (n : Nat) :
      Reachable v → Reachable (v.set_capacity n)

end PreallocatedVec

/-! ## `AveragingBuffer` -/

/-- State of an `AveragingBuffer`: the `VecDeque<usize>` (front of the
deque at the head of the list), the fixed capacity, and the running
saturating sum. -/
structure AveragingBuffer where
  buffer : List Nat
  capacity : Nat
  sum : Nat
  deriving Repr, DecidableEq

namespace AveragingBuffer

/-- Rust `AveragingBuffer::new(capacity)`: empty deque, zero sum. -/
def new (capacity : Nat) : AveragingBuffer :=
  { buffer := [], capacity := capacity, sum := 0 }

/-- The body of Rust `AveragingBuffer::push`'s
`if let Some(old) = self.buffer.pop_front()` block: pop the oldest value and
subtract it from the running sum saturatingly; a no-op on an empty deque. -/
def popOldest (b : AveragingBuffer) : AveragingBuffer :=
  match b.buffer with
  | [] => b
  | old :: rest => { b with buffer := rest, sum := satSub b.sum old }

/-- The tail of Rust `AveragingBuffer::push`: `push_back` the new value and
add it to the running sum saturatingly. -/
def pushBack (b : AveragingBuffer) (value : Nat) : AveragingBuffer :=
  { b with buffer := b.buffer ++ [value], sum := satAdd b.sum value }

/-- Rust `AveragingBuffer::push`: when the deque is at capacity, pop the oldest
value and subtract it saturatingly; then append the new value and add it
saturatingly. -/
def push (b : AveragingBuffer) (value : Nat) : AveragingBuffer :=
  pushBack (if b.buffer.length = b.capacity then popOldest b else b) value

/-- Rationals exactly representable as an IEEE 754 binary64 value in the
range `avg` works in: a dyadic `m / 2 ^ k` whose numerator fits in the
53-bit significand and whose exponent stays at or above the subnormal
minimum.  (A sufficient condition for representability: such a value is
`± m * 2 ^ (-k)` with `m < 2 ^ 53` and `-k ≥ -1074`.) -/
def reprF64 (q : ℚ) : Prop :=
  ∃ (m : ℤ) (k : ℕ), m.natAbs < 2 ^ 53 ∧ k ≤ 1074 ∧ q = (m : ℚ) / (2 ^ k : ℚ)

/-- Contract of the `f64` computation `a as f64 / b as f64` on the operand
range `avg` uses, as an abstract division function: IEEE 754 division is
correctly rounded, so whenever both operands convert to `f64` exactly
(integers below `2 ^ 53`) and the true quotient is exactly representable,
the result IS the true quotient.  Nothing else about the rounded result is
assumed anywhere in this development. -/
def IsF64Div (fdiv : Nat → Nat → ℚ) : Prop :=
  ∀ a b : Nat, a < 2 ^ 53 → b < 2 ^ 53 → reprF64 ((a : ℚ) / (b : ℚ)) →
    fdiv a b = (a : ℚ) / (b : ℚ)

/-- Rust `AveragingBuffer::avg`: `None` on an empty deque, else the `f64`
quotient `sum as f64 / len as f64`.  The `f64` division is not given a
fixed rounded value in the model: it is the parameter `fdiv`, and every
theorem about the `Some` value assumes only `IsF64Div fdiv` and concludes
only at exactly representable quotients, where IEEE 754 fixes the result. -/
def avg (fdiv : Nat → Nat → ℚ) (b : AveragingBuffer) : Option ℚ :=
  if b.buffer.isEmpty then none
  else some (fdiv b.sum b.buffer.length)

/-- Push every element of `xs` in order. -/
def pushAll (b : AveragingBuffer) (xs : List Nat) : AveragingBuffer :=
  xs.foldl push b

end AveragingBuffer


/-! ## Lemmas about the `Vec` primitives -/

theorem vecPush_fst {α : Type} (items : List α) (cap : Nat) (x : α) :
    (vecPush items cap x).1 = items ++ [x] := by
  unfold vecPush
  split <;> rfl

theorem le_vecPush_snd {α : Type} (items : List α) (cap : Nat) (x : α) :
    (items ++ [x]).length ≤ (vecPush items cap x).2 := by
  unfold vecPush
  rcases Nat.lt_or_ge items.length cap with hlt | hge
  · rw [if_pos hlt]
    show (items ++ [x]).length ≤ cap
    rw [List.length_append]
    simpa using hlt
  · rw [if_neg (Nat.not_lt.mpr hge)]
    show (items ++ [x]).length ≤ growAmortized cap (items.length + 1)
    have h1 : (items ++ [x]).length = items.length + 1 := by simp
    rw [h1]
    exact le_max_of_le_right (le_max_right _ _)

theorem vecPush_snd_of_lt {α : Type} (items : List α) (cap : Nat) (x : α)
    (h : items.length < cap) :
    (vecPush items cap x).2 = cap := by
  unfold vecPush
  rw [if_pos h]

theorem vecResizeWith_fst_length {α : Type} (items : List α) (cap n : Nat)
    (f : α) : (vecResizeWith items cap n f).1.length = n := by
  unfold vecResizeWith
  rcases le_or_lt n items.length with hle | hgt
  · rw [if_pos hle]
    show (items.take n).length = n
    simpa using hle
  · rw [if_neg (Nat.not_le.mpr hgt)]
    show (items ++ List.replicate (n - items.length) f).length = n
    rw [List.length_append, List.length_replicate]
    omega

theorem le_vecResizeWith_snd {α : Type} (items : List α) (cap n : Nat) (f : α)
    (h : items.length ≤ cap) : n ≤ (vecResizeWith items cap n f).2 := by
  unfold vecResizeWith
  rcases le_or_lt n items.length with hle | hgt
  · rw [if_pos hle]
    exact le_trans hle h
  · rw [if_neg (Nat.not_le.mpr hgt)]
    show n ≤ if n ≤ cap then cap else growAmortized cap n
    rcases le_or_lt n cap with hc | hc
    · rw [if_pos hc]
      exact hc
    · rw [if_neg (Nat.not_le.mpr hc)]
      exact le_max_of_le_right (le_max_right _ _)

/-! ## Lemmas about `PreallocatedVec` -/

namespace PreallocatedVec

variable {α : Type}

theorem with_capacity_eq (c : Nat) (cfn : α) :
    with_capacity c cfn = ⟨List.replicate c cfn, c, 0, cfn⟩ := by
  unfold with_capacity set_capacity vecResizeWith
  rcases Nat.eq_zero_or_pos c with hc | hc
  · subst hc
    rfl
  · simp [Nat.not_le.mpr hc]

theorem push_of_lt (v : PreallocatedVec α) (x : α)
    (h : v.back_index < v.items.length) :
    v.push x = { v with items := v.items.set v.back_index x,
                        back_index := v.back_index + 1 } := by
  unfold push
  rw [if_pos h]

theorem push_of_ge (v : PreallocatedVec α) (x : α)
    (h : v.items.length ≤ v.back_index) :
    v.push x = { v with items := v.items ++ [x],
                        cap := (vecPush v.items v.cap x).2,
                        back_index := v.back_index + 1 } := by
  unfold push
  rw [if_neg (Nat.not_lt.mpr h), vecPush_fst]

theorem back_index_push (v : PreallocatedVec α) (x : α) :
    (v.push x).back_index = v.back_index + 1 := by
  rcases Nat.lt_or_ge v.back_index v.items.length with hlt | hge
  · rw [push_of_lt v x hlt]
  · rw [push_of_ge v x hge]

theorem creation_fn_push (v : PreallocatedVec α) (x : α) :
    (v.push x).creation_fn = v.creation_fn := by
  rcases Nat.lt_or_ge v.back_index v.items.length with hlt | hge
  · rw [push_of_lt v x hlt]
  · rw [push_of_ge v x hge]

theorem wf_push (v : PreallocatedVec α) (x : α)
    (h1 : v.back_index ≤ v.items.length) (h2 : v.items.length ≤ v.cap) :
    (v.push x).back_index ≤ (v.push x).items.length ∧
      (v.push x).items.length ≤ (v.push x).cap := by
  rcases Nat.lt_or_ge v.back_index v.items.length with hlt | hge
  · rw [push_of_lt v x hlt]
    refine ⟨?_, ?_⟩
    · show v.back_index + 1 ≤ (v.items.set v.back_index x).length
      rw [List.length_set]
      omega
    · show (v.items.set v.back_index x).length ≤ v.cap
      rw [List.length_set]
      exact h2
  · rw [push_of_ge v x hge]
    refine ⟨?_, ?_⟩
    · show v.back_index + 1 ≤ (v.items ++ [x]).length
      rw [List.length_append]
      simp
      omega
    · exact le_vecPush_snd v.items v.cap x

theorem push_prealloc_of_lt_true (v : PreallocatedVec α) (f : α → α × Bool)
    (h : v.back_index < v.items.length)
    (hok : (f (v.items.get ⟨v.back_index, h⟩)).2 = true) :
    v.push_prealloc f =
      { v with items := v.items.set v.back_index
                 (f (v.items.get ⟨v.back_index, h⟩)).1,
               back_index := v.back_index + 1 } := by
  unfold push_prealloc
  rw [dif_pos h, if_pos hok]

theorem push_prealloc_of_lt_false (v : PreallocatedVec α) (f : α → α × Bool)
    (h : v.back_index < v.items.length)
    (hok : (f (v.items.get ⟨v.back_index, h⟩)).2 = false) :
    v.push_prealloc f =
      { v with items := v.items.set v.back_index
                 (f (v.items.get ⟨v.back_index, h⟩)).1 } := by
  unfold push_prealloc
  rw [dif_pos h, if_neg (by rw [hok]; exact Bool.false_ne_true)]

theorem push_prealloc_of_ge_true (v : PreallocatedVec α) (f : α → α × Bool)
    (h : v.items.length ≤ v.back_index)
    (hok : (f v.creation_fn).2 = true) :
    v.push_prealloc f =
      { v with items := v.items ++ [(f v.creation_fn).1],
               cap := (vecPush v.items v.cap (f v.creation_fn).1).2,
               back_index := v.back_index + 1 } := by
  unfold push_prealloc
  rw [dif_neg (Nat.not_lt.mpr h), if_pos hok, vecPush_fst]

theorem push_prealloc_of_ge_false (v : PreallocatedVec α) (f : α → α × Bool)
    (h : v.items.length ≤ v.back_index)
    (hok : (f v.creation_fn).2 = false) :
    v.push_prealloc f = v := by
  unfold push_prealloc
  rw [dif_neg (Nat.not_lt.mpr h), if_neg (by rw [hok]; exact Bool.false_ne_true)]

theorem wf_push_prealloc (v : PreallocatedVec α) (f : α → α × Bool)
    (h1 : v.back_index ≤ v.items.length) (h2 : v.items.length ≤ v.cap) :
    (v.push_prealloc f).back_index ≤ (v.push_prealloc f).items.length ∧
      (v.push_prealloc f).items.length ≤ (v.push_prealloc f).cap := by
  rcases Nat.lt_or_ge v.back_index v.items.length with hlt | hge
  · rcases Bool.eq_false_or_eq_true (f (v.items.get ⟨v.back_index, hlt⟩)).2
      with hok | hok
    · rw [push_prealloc_of_lt_true v f hlt hok]
      refine ⟨?_, ?_⟩
      · show v.back_index + 1 ≤ (v.items.set v.back_index _).length
        rw [List.length_set]
        omega
      · show (v.items.set v.back_index _).length ≤ v.cap
        rw [List.length_set]
        exact h2
    · rw [push_prealloc_of_lt_false v f hlt hok]
      refine ⟨?_, ?_⟩
      · show v.back_index ≤ (v.items.set v.back_index _).length
        rw [List.length_set]
        exact h1
      · show (v.items.set v.back_index _).length ≤ v.cap
        rw [List.length_set]
        exact h2
  · rcases Bool.eq_false_or_eq_true (f v.creation_fn).2 with hok | hok
    · rw [push_prealloc_of_ge_true v f hge hok]
      refine ⟨?_, ?_⟩
      · show v.back_index + 1 ≤ (v.items ++ [(f v.creation_fn).1]).length
        rw [List.length_append]
        simp
        omega
      · exact le_vecPush_snd v.items v.cap (f v.creation_fn).1
    · rw [push_prealloc_of_ge_false v f hge hok]
      exact ⟨h1, h2⟩

theorem wf_set_capacity (v : PreallocatedVec α) (n : Nat)
    (h2 : v.items.length ≤ v.cap) :
    (v.set_capacity n).back_index ≤ (v.set_capacity n).items.length ∧
      (v.set_capacity n).items.length ≤ (v.set_capacity n).cap := by
  unfold set_capacity
  refine ⟨?_, ?_⟩
  · show min v.back_index n ≤ (vecResizeWith v.items v.cap n v.creation_fn).1.length
    rw [vecResizeWith_fst_length]
    exact min_le_right _ _
  · show (vecResizeWith v.items v.cap n v.creation_fn).1.length ≤
      (vecResizeWith v.items v.cap n v.creation_fn).2
    rw [vecResizeWith_fst_length]
    exact le_vecResizeWith_snd v.items v.cap n v.creation_fn h2

theorem wf_reachable (v : PreallocatedVec α) (h : Reachable v) :
    v.back_index ≤ v.items.length ∧ v.items.length ≤ v.cap := by
  induction h with
  | init c cfn =>
      rw [with_capacity_eq]
      simp
  | push w x _ ih => exact wf_push w x ih.1 ih.2
  | push_prealloc w f _ ih => exact wf_push_prealloc w f ih.1 ih.2
  | clear w _ ih => exact ⟨Nat.zero_le _, ih.2⟩
  | set_capacity w n _ ih => exact wf_set_capacity w n ih.2

theorem get_eq_of_lt (v : PreallocatedVec α) (i : Nat)
    (h : i < v.back_index) : v.get i = v.items[i]? := by
  unfold get
  rw [if_pos h]

theorem get_push_of_lt (v : PreallocatedVec α) (x : α) (i : Nat)
    (h1 : v.back_index ≤ v.items.length) (h : i < v.back_index) :
    (v.push x).get i = v.get i := by
  rw [get_eq_of_lt _ _ (by rw [back_index_push]; omega), get_eq_of_lt _ _ h]
  rcases Nat.lt_or_ge v.back_index v.items.length with hlt | hge
  · rw [push_of_lt v x hlt]
    show (v.items.set v.back_index x)[i]? = v.items[i]?
    rw [List.getElem?_set_ne (by omega)]
  · rw [push_of_ge v x hge]
    show (v.items ++ [x])[i]? = v.items[i]?
    rw [List.getElem?_append_left (by omega)]

theorem get_push_back (v : PreallocatedVec α) (x : α)
    (h1 : v.back_index ≤ v.items.length) :
    (v.push x).get v.back_index = some x := by
  rw [get_eq_of_lt _ _ (by rw [back_index_push]; omega)]
  rcases Nat.lt_or_ge v.back_index v.items.length with hlt | hge
  · rw [push_of_lt v x hlt]
    show (v.items.set v.back_index x)[v.back_index]? = some x
    rw [List.getElem?_set_self hlt]
  · have hb : v.back_index = v.items.length := le_antisymm h1 hge
    rw [push_of_ge v x hge]
    show (v.items ++ [x])[v.back_index]? = some x
    rw [hb, List.getElem?_concat_length]

theorem pushAll_nil (v : PreallocatedVec α) : v.pushAll [] = v := rfl

theorem pushAll_cons (v : PreallocatedVec α) (x : α) (xs : List α) :
    v.pushAll (x :: xs) = (v.push x).pushAll xs := rfl

theorem back_index_pushAll (xs : List α) (v : PreallocatedVec α) :
    (v.pushAll xs).back_index = v.back_index + xs.length := by
  induction xs generalizing v with
  | nil => simp [pushAll_nil]
  | cons x xs ih =>
      rw [pushAll_cons, ih, back_index_push]
      simp
      omega

theorem wf_pushAll (xs : List α) (v : PreallocatedVec α)
    (h1 : v.back_index ≤ v.items.length) (h2 : v.items.length ≤ v.cap) :
    (v.pushAll xs).back_index ≤ (v.pushAll xs).items.length ∧
      (v.pushAll xs).items.length ≤ (v.pushAll xs).cap := by
  induction xs generalizing v with
  | nil => exact ⟨h1, h2⟩
  | cons x xs ih =>
      rw [pushAll_cons]
      exact ih (v.push x) (wf_push v x h1 h2).1 (wf_push v x h1 h2).2

theorem get_pushAll_of_lt (xs : List α) (v : PreallocatedVec α) (i : Nat)
    (h1 : v.back_index ≤ v.items.length) (h2 : v.items.length ≤ v.cap)
    (h : i < v.back_index) :
    (v.pushAll xs).get i = v.get i := by
  induction xs generalizing v with
  | nil => rw [pushAll_nil]
  | cons x xs ih =>
      rw [pushAll_cons,
          ih (v.push x) (wf_push v x h1 h2).1 (wf_push v x h1 h2).2
            (by rw [back_index_push]; omega),
          get_push_of_lt v x i h1 h]

theorem get_pushAll_pushed (xs : List α) (v : PreallocatedVec α)
    (h1 : v.back_index ≤ v.items.length) (h2 : v.items.length ≤ v.cap) :
    ∀ i, i < xs.length → (v.pushAll xs).get (v.back_index + i) = xs[i]? := by
  induction xs generalizing v with
  | nil => intro i hi; simp at hi
  | cons x xs ih =>
      intro i hi
      rw [pushAll_cons]
      cases i with
      | zero =>
          rw [Nat.add_zero,
              get_pushAll_of_lt xs (v.push x) v.back_index
                (wf_push v x h1 h2).1 (wf_push v x h1 h2).2
                (by rw [back_index_push]; omega),
              get_push_back v x h1]
          simp
      | succ j =>
          have harith : v.back_index + (j + 1) = (v.push x).back_index + j := by
            rw [back_index_push]
            omega
          rw [harith,
              ih (v.push x) (wf_push v x h1 h2).1 (wf_push v x h1 h2).2 j
                (by simpa using hi)]
          simp

theorem pushAll_inplace (xs : List α) (v : PreallocatedVec α)
    (h : v.back_index + xs.length ≤ v.items.length) :
    (v.pushAll xs).cap = v.cap ∧
      (v.pushAll xs).items.length = v.items.length := by
  induction xs generalizing v with
  | nil => exact ⟨rfl, rfl⟩
  | cons x xs ih =>
      have hlen : xs.length + 1 = (x :: xs).length := rfl
      have hlt : v.back_index < v.items.length := by
        rw [← hlen] at h
        omega
      have hstep := push_of_lt v x hlt
      have h' : (v.push x).back_index + xs.length ≤ (v.push x).items.length := by
        rw [hstep]
        show v.back_index + 1 + xs.length ≤ (v.items.set v.back_index x).length
        rw [List.length_set]
        rw [← hlen] at h
        omega
      obtain ⟨hc, hl⟩ := ih (v.push x) h'
      rw [pushAll_cons]
      refine ⟨?_, ?_⟩
      · rw [hc, hstep]
      · rw [hl, hstep]
        show (v.items.set v.back_index x).length = v.items.length
        rw [List.length_set]

end PreallocatedVec

/-! ## Lemmas about `AveragingBuffer` -/

theorem satAdd_eq (a b : Nat) (h : a + b ≤ usizeMax) : satAdd a b = a + b :=
  Nat.min_eq_left h

namespace AveragingBuffer

theorem pushAll_nil_avgbuf (b : AveragingBuffer) : b.pushAll [] = b := rfl

theorem pushAll_append_singleton (b : AveragingBuffer) (xs : List Nat)
    (y : Nat) : b.pushAll (xs ++ [y]) = (b.pushAll xs).push y := by
  unfold pushAll
  rw [List.foldl_append]
  rfl

theorem sum_drop_le (xs : List Nat) (k : Nat) : (xs.drop k).sum ≤ xs.sum := by
  have h := List.sum_take_add_sum_drop xs k
  omega

/-- Core invariant of the averaging buffer: after pushing `xs` onto a fresh
buffer of capacity `c ≥ 1`, provided the total of all pushed values fits in
`usize` (so the saturating arithmetic is exact), the deque holds exactly the
`min c xs.length` most recently pushed values in order and the running sum
is their exact sum. -/
theorem window_invariant (c : Nat) (hc : 1 ≤ c) :
    ∀ xs : List Nat, xs.sum ≤ usizeMax →
      ((AveragingBuffer.new c).pushAll xs).capacity = c ∧
        ((AveragingBuffer.new c).pushAll xs).buffer =
          xs.drop (xs.length - c) ∧
        ((AveragingBuffer.new c).pushAll xs).sum =
          (xs.drop (xs.length - c)).sum := by
  intro xs
  induction xs using List.reverseRecOn with
  | nil =>
      refine fun _ => ⟨rfl, ?_, ?_⟩ <;> simp [pushAll_nil_avgbuf, AveragingBuffer.new]
  | append_singleton ys y ih =>
      intro hsum
      have hys : ys.sum ≤ usizeMax := by
        rw [List.sum_append] at hsum
        simp at hsum
        omega
      obtain ⟨hcap, hbuf, hsm⟩ := ih hys
      rw [pushAll_append_singleton]
      unfold push pushBack
      rcases le_or_lt c ys.length with hcy | hcy
      · -- the window is full: the oldest element is popped
        have hlen : ((AveragingBuffer.new c).pushAll ys).buffer.length = c := by
          rw [hbuf, List.length_drop]
          omega
        rw [hcap, if_pos hlen]
        rcases hw : ((AveragingBuffer.new c).pushAll ys).buffer with _ | ⟨old, rest⟩
        · exfalso
          rw [hw] at hlen
          simp at hlen
          omega
        · have hrest : rest = ys.drop (ys.length - c + 1) := by
            have := List.tail_drop ys (ys.length - c)
            rw [← hbuf, hw] at this
            simpa using this
          have hsum_old : ((AveragingBuffer.new c).pushAll ys).sum
              = old + rest.sum := by
            rw [hsm, ← hbuf, hw]
            simp
          have hrest_le : rest.sum ≤ ys.sum := by
            have h1 : (ys.drop (ys.length - c)).sum ≤ ys.sum :=
              sum_drop_le ys (ys.length - c)
            rw [← hbuf, hw] at h1
            simp at h1
            omega
          unfold popOldest
          rw [hw]
          have hdrop1 : (ys.length + 1) - c = (ys.length - c) + 1 := by omega
          have hdrop2 : ((ys ++ [y]).length - c) = (ys.length - c) + 1 := by
            simp
            omega
          refine ⟨by rw [hcap], ?_, ?_⟩
          · show rest ++ [y] = (ys ++ [y]).drop ((ys ++ [y]).length - c)
            rw [hdrop2, List.drop_append_of_le_length (by omega), hrest]
          · show satAdd (satSub (((AveragingBuffer.new c).pushAll ys).sum) old) y
              = ((ys ++ [y]).drop ((ys ++ [y]).length - c)).sum
            rw [hsum_old]
            have hsub : satSub (old + rest.sum) old = rest.sum := by
              unfold satSub
              omega
            rw [hsub, satAdd_eq rest.sum y
                (by rw [List.sum_append] at hsum; simp at hsum; omega),
              hdrop2, List.drop_append_of_le_length (by omega), ← hrest]
            simp
      · -- the window is not yet full: plain append
        have hlen : ((AveragingBuffer.new c).pushAll ys).buffer.length
            = ys.length := by
          rw [hbuf, List.length_drop]
          omega
        have hne : ¬ ((AveragingBuffer.new c).pushAll ys).buffer.length
            = ((AveragingBuffer.new c).pushAll ys).capacity := by
          rw [hlen, hcap]
          omega
        rw [if_neg hne]
        have hdrop0 : ys.length - c = 0 := by omega
        have hdrop0' : (ys ++ [y]).length - c = 0 := by
          simp
          omega
        refine ⟨by rw [hcap], ?_, ?_⟩
        · show ((AveragingBuffer.new c).pushAll ys).buffer ++ [y]
            = (ys ++ [y]).drop ((ys ++ [y]).length - c)
          rw [hbuf, hdrop0, hdrop0']
          simp
        · show satAdd (((AveragingBuffer.new c).pushAll ys).sum) y
            = ((ys ++ [y]).drop ((ys ++ [y]).length - c)).sum
          rw [hsm, hdrop0, hdrop0']
          simp
          rw [satAdd_eq ys.sum y (by rw [List.sum_append] at hsum; simp at hsum; omega)]

end AveragingBuffer

/-! ## Additional helper lemmas -/

namespace PreallocatedVec

variable {α : Type}

theorem set_capacity_items_of_ge (v : PreallocatedVec α) (n : Nat)
    (h : v.items.length ≤ n) :
    (v.set_capacity n).items
      = v.items ++ List.replicate (n - v.items.length) v.creation_fn := by
  unfold set_capacity
  show (vecResizeWith v.items v.cap n v.creation_fn).1 = _
  unfold vecResizeWith
  rcases le_or_lt n v.items.length with hle | hgt
  · have heq : n = v.items.length := le_antisymm hle h
    rw [if_pos hle, heq]
    simp
  · rw [if_neg (Nat.not_le.mpr hgt)]

theorem len_push_prealloc_abort (v : PreallocatedVec α) (f : α → α × Bool)
    (hf : ∀ x, (f x).2 = false) :
    (v.push_prealloc f).len = v.len := by
  rcases le_or_lt v.items.length v.back_index with hge | hlt
  · rw [push_prealloc_of_ge_false v f hge (hf _)]
  · rw [push_prealloc_of_lt_false v f hlt (hf _)]
    rfl

/-! ## The claims -/

/-- C1 (code bug): the specification says `last()`/`last_mut()` return the
element at `logical_length - 1` when `logical_length > 0` and report absence
when `len() == 0`, agreeing with `get(logical_length - 1)` and `last_index()`.
The code instead reads the PHYSICAL store length `items.len()`.  On
`with_capacity(1, || 0)` with no pushes, `len()` is `0` and `get(0)` and
`last_index()` report absence, yet `last()` and `last_mut()` return the
pre-filled stale slot `0` — the code contradicts the buffer's own
logical-length bounds discipline. -/
theorem last_reads_stale_slot_on_empty_buffer :
    (with_capacity 1 (0 : Nat)).len = 0 ∧
      (with_capacity 1 (0 : Nat)).last = some 0 ∧
      (with_capacity 1 (0 : Nat)).last_mut = some 0 ∧
      (with_capacity 1 (0 : Nat)).last_index = none ∧
      (with_capacity 1 (0 : Nat)).get 0 = none := by
  decide

/-- C2 counterexample: on the claim's own example, `with_capacity(1)`
followed by three pushes, `capacity()` returns `4`, not `3`, and differs
from the physical store length `3`: `capacity()` reads the backing `Vec`'s
allocation capacity, which Rust grows amortizedly (here `1 → 4` on the
first overflowing push), not the number of filled slots. -/
theorem capacity_is_allocation_not_physical_length :
    (pushAll (with_capacity 1 (0 : Nat)) [1, 2, 3]).capacity = 4 ∧
      (pushAll (with_capacity 1 (0 : Nat)) [1, 2, 3]).raw_slice.length = 3 ∧
      ¬ (pushAll (with_capacity 1 (0 : Nat)) [1, 2, 3]).capacity
          = (pushAll (with_capacity 1 (0 : Nat)) [1, 2, 3]).raw_slice.length := by
  decide

/-- C2 (amended): `capacity()` returns the allocation capacity of the
backing `Vec`, an upper bound on the physical length of the store at every
reachable state; each push past the physical end appends exactly one slot
to the store and increments `len()` by one, but `capacity()` itself can
grow by more than one: the claim's example yields physical length `3` and
`capacity() == 4`. -/
theorem capacity_bounds_physical_length (α : Type) :
    (∀ v : PreallocatedVec α, Reachable v →
        v.raw_slice.length ≤ v.capacity) ∧
      (∀ (v : PreallocatedVec α) (x : α), v.raw_slice.length ≤ v.back_index →
        (v.push x).raw_slice.length = v.raw_slice.length + 1 ∧
          (v.push x).len = v.len + 1) ∧
      ((pushAll (with_capacity 1 (0 : Nat)) [1, 2, 3]).capacity = 4 ∧
        (pushAll (with_capacity 1 (0 : Nat)) [1, 2, 3]).raw_slice.length = 3) := by
  refine ⟨fun v h => (wf_reachable v h).2, fun v x h => ?_, by decide⟩
  refine ⟨?_, back_index_push v x⟩
  rw [show (v.push x).raw_slice = v.items ++ [x] from by
        rw [push_of_ge v x h]
        rfl]
  simp [raw_slice]

theorem capacity_bounds_physical_length_witness :
    (with_capacity 2 (0 : Nat)).raw_slice.length
        ≤ (with_capacity 2 (0 : Nat)).capacity ∧
      ((with_capacity 0 (0 : Nat)).push 7).raw_slice.length
        = (with_capacity 0 (0 : Nat)).raw_slice.length + 1 :=
  ⟨(capacity_bounds_physical_length Nat).1 _ (Reachable.init 2 0),
   ((capacity_bounds_physical_length Nat).2.1 _ 7 (by decide)).1⟩

/-- C3: on a freshly constructed buffer, any sequence of `N` pushes with no
intervening `clear` leaves `len() = N`, and `get(i)` for `i < N` returns the
`i`-th pushed value in push order. -/
theorem push_sequence_len_get {α : Type} (c : Nat) (cfn : α) (xs : List α) :
    (pushAll (with_capacity c cfn) xs).len = xs.length ∧
      ∀ i, i < xs.length →
        (pushAll (with_capacity c cfn) xs).get i = xs[i]? := by
  have hwf : (with_capacity c cfn).back_index
        ≤ (with_capacity c cfn).items.length ∧
      (with_capacity c cfn).items.length ≤ (with_capacity c cfn).cap := by
    rw [with_capacity_eq]
    simp
  constructor
  · show (pushAll (with_capacity c cfn) xs).back_index = xs.length
    rw [back_index_pushAll, with_capacity_eq]
    simp
  · intro i hi
    have h := get_pushAll_pushed xs (with_capacity c cfn) hwf.1 hwf.2 i hi
    rw [with_capacity_eq] at h
    rw [with_capacity_eq]
    simpa using h

theorem push_sequence_len_get_witness :
    (pushAll (with_capacity 3 (0 : Nat)) [10, 20, 30]).len = 3 ∧
      (pushAll (with_capacity 3 (0 : Nat)) [10, 20, 30]).get 1 = some 20 := by
  refine ⟨(push_sequence_len_get 3 0 [10, 20, 30]).1, ?_⟩
  have h := (push_sequence_len_get 3 (0 : Nat) [10, 20, 30]).2 1 (by decide)
  simpa using h

/-- C4 counterexample: growing `push` fills the new slot with the PUSHED
value, not with a factory-made element: on `with_capacity(0, || 0)`,
`push(5)` appends the slot `5`, whereas a factory fill would append `0`. -/
theorem push_growth_slot_not_factory :
    ((with_capacity 0 (0 : Nat)).push 5).raw_slice = [5] ∧
      ¬ ((with_capacity 0 (0 : Nat)).push 5).raw_slice
          = List.replicate 1 ((with_capacity 0 (0 : Nat)).push 5).creation_fn := by
  decide

/-- C4 (amended): whenever `push`, `push_prealloc` or `set_capacity` grows
the physical store, existing slots keep their index (the old store is a
prefix of the new one) and new slots are appended at the end, filled with
the pushed value for `push`, with the callback's mutation of a
factory-created element for `push_prealloc`, and by invoking the factory
for `set_capacity`. -/
theorem growth_appends_preserving_slots (α : Type) :
    (∀ (v : PreallocatedVec α) (x : α), v.items.length ≤ v.back_index →
        (v.push x).items = v.items ++ [x] ∧
          ∀ i, i < v.items.length → (v.push x).items[i]? = v.items[i]?) ∧
      (∀ (v : PreallocatedVec α) (f : α → α × Bool),
          v.items.length ≤ v.back_index → (f v.creation_fn).2 = true →
        (v.push_prealloc f).items = v.items ++ [(f v.creation_fn).1] ∧
          ∀ i, i < v.items.length →
            (v.push_prealloc f).items[i]? = v.items[i]?) ∧
      (∀ (v : PreallocatedVec α) (n : Nat), v.items.length ≤ n →
        (v.set_capacity n).items
            = v.items ++ List.replicate (n - v.items.length) v.creation_fn ∧
          ∀ i, i < v.items.length →
            (v.set_capacity n).items[i]? = v.items[i]?) := by
  refine ⟨fun v x h => ?_, fun v f h hok => ?_, fun v n h => ?_⟩
  · have he : (v.push x).items = v.items ++ [x] := by
      rw [push_of_ge v x h]
    exact ⟨he, fun i hi => by rw [he, List.getElem?_append_left hi]⟩
  · have he : (v.push_prealloc f).items = v.items ++ [(f v.creation_fn).1] := by
      rw [push_prealloc_of_ge_true v f h hok]
    exact ⟨he, fun i hi => by rw [he, List.getElem?_append_left hi]⟩
  · have he := set_capacity_items_of_ge v n h
    exact ⟨he, fun i hi => by rw [he, List.getElem?_append_left hi]⟩

theorem growth_appends_preserving_slots_witness :
    ((with_capacity 0 (0 : Nat)).push 5).items
        = (with_capacity 0 (0 : Nat)).items ++ [5] ∧
      ((with_capacity 0 (0 : Nat)).push_prealloc (fun x => (x + 9, true))).items
        = (with_capacity 0 (0 : Nat)).items ++ [9] ∧
      ((with_capacity 1 (0 : Nat)).set_capacity 3).items
        = (with_capacity 1 (0 : Nat)).items ++ List.replicate 2 0 :=
  ⟨((growth_appends_preserving_slots Nat).1 _ 5 (by decide)).1,
   ((growth_appends_preserving_slots Nat).2.1 _ (fun x => (x + 9, true))
      (by decide) (by decide)).1,
   ((growth_appends_preserving_slots Nat).2.2 _ 3 (by decide)).1⟩

/-- C5: `push_prealloc` with a callback that always reports failure never
changes `len()`, no matter how many times it is called. -/
theorem push_prealloc_abort_preserves_len {α : Type} (v : PreallocatedVec α)
    (f : α → α × Bool) (hf : ∀ x, (f x).2 = false) (n : Nat) :
    ((fun s : PreallocatedVec α => s.push_prealloc f)^[n] v).len = v.len := by
  induction n with
  | zero => rfl
  | succ k ih =>
      rw [Function.iterate_succ_apply']
      rw [len_push_prealloc_abort _ f hf]
      exact ih

theorem push_prealloc_abort_preserves_len_witness :
    ((fun s : PreallocatedVec Nat =>
        s.push_prealloc (fun x => (x, false)))^[3]
          (with_capacity 2 (0 : Nat))).len
      = (with_capacity 2 (0 : Nat)).len :=
  push_prealloc_abort_preserves_len (with_capacity 2 0)
    (fun x => (x, false)) (fun _ => rfl) 3

/-- C6: `push_prealloc` with an always-succeeding callback that writes `w`
into its slot produces exactly the state `push(w)` produces, hence the same
`len()` and the same result of every subsequent `get(i)`. -/
theorem push_prealloc_success_refines_push {α : Type} (v : PreallocatedVec α)
    (w : α) :
    v.push_prealloc (fun _ => (w, true)) = v.push w ∧
      (v.push_prealloc (fun _ => (w, true))).len = (v.push w).len ∧
      ∀ i, (v.push_prealloc (fun _ => (w, true))).get i = (v.push w).get i := by
  have h : v.push_prealloc (fun _ => (w, true)) = v.push w := by
    rcases le_or_lt v.items.length v.back_index with hge | hlt
    · rw [push_prealloc_of_ge_true v _ hge rfl, push_of_ge v w hge]
    · rw [push_prealloc_of_lt_true v _ hlt rfl, push_of_lt v w hlt]
  exact ⟨h, by rw [h], fun i => by rw [h]⟩

/-- C7: after `clear()`, any sequence of pushes whose count does not exceed
the logical length the buffer had when it was cleared (which never exceeds
the physical store length, the hypothesis used here) leaves `capacity()`
unchanged and performs no physical growth: every push overwrites a stale
slot in place. -/
theorem clear_then_repush_reuses_slots {α : Type} (v : PreallocatedVec α)
    (xs : List α) (hxs : xs.length ≤ v.items.length) :
    (v.clear.pushAll xs).capacity = v.capacity ∧
      (v.clear.pushAll xs).raw_slice.length = v.raw_slice.length := by
  have h := pushAll_inplace xs v.clear
    (by show 0 + xs.length ≤ v.items.length; omega)
  exact ⟨h.1, h.2⟩

theorem clear_then_repush_reuses_slots_witness :
    ((pushAll (with_capacity 3 (0 : Nat)) [10, 20, 30]).clear.pushAll
          [99, 98, 97]).capacity
        = (pushAll (with_capacity 3 (0 : Nat)) [10, 20, 30]).capacity ∧
      ((pushAll (with_capacity 3 (0 : Nat)) [10, 20, 30]).clear.pushAll
          [99, 98, 97]).raw_slice.length
        = (pushAll (with_capacity 3 (0 : Nat)) [10, 20, 30]).raw_slice.length :=
  clear_then_repush_reuses_slots _ [99, 98, 97] (by decide)

/-- C8: `clear()` resets `len()` to `0` and leaves both the physical
capacity and every slot of the store untouched. -/
theorem clear_resets_len_only {α : Type} (v : PreallocatedVec α) :
    v.clear.len = 0 ∧ v.clear.capacity = v.capacity ∧
      v.clear.raw_slice = v.raw_slice :=
  ⟨rfl, rfl, rfl⟩

/-- C9: `get(i)` and `get_mut(i)` report absence for every `i ≥ len()`,
including stale physical slots between `len()` and `capacity()`. -/
theorem get_absent_beyond_len {α : Type} (v : PreallocatedVec α) (i : Nat)
    (h : v.len ≤ i) : v.get i = none ∧ v.get_mut i = none := by
  have h2 : ¬ i < v.back_index := Nat.not_lt.mpr h
  unfold get get_mut
  rw [if_neg h2]
  exact ⟨rfl, rfl⟩

theorem get_absent_beyond_len_witness :
    (pushAll (with_capacity 2 (0 : Nat)) [5]).get 2 = none ∧
      (pushAll (with_capacity 2 (0 : Nat)) [5]).get_mut 2 = none :=
  get_absent_beyond_len _ 2 (by decide)

end PreallocatedVec

namespace AveragingBuffer

/-- C10 counterexample: after `new(2)`, `push(1)`, `push(2)` the division
operands are the sum `3` and the count `2`.  The true quotient `3/2` is
exactly representable in binary64, so IEEE 754 correctly rounded division —
and the code, whose own doctest asserts `avg() == Some(1.5)` — returns
exactly `3/2` there, not the claim's floor quotient `(1 + 2) / 2 = 1`.  The
division parameter is instantiated with the exact quotient, which any
`IsF64Div` division (genuine `f64` division included) coincides with at
this representable point. -/
theorem avg_is_exact_division_not_floor :
    ((AveragingBuffer.new 2).pushAll [1, 2]).sum = 3 ∧
      ((AveragingBuffer.new 2).pushAll [1, 2]).buffer.length = 2 ∧
      avg (fun a b => (a : ℚ) / (b : ℚ)) ((AveragingBuffer.new 2).pushAll [1, 2])
        = some ((3 : ℚ) / 2) ∧
      reprF64 ((3 : ℚ) / 2) ∧
      ¬ ((3 : ℚ) / 2 = (((1 + 2) / 2 : Nat) : ℚ)) := by
  have hstate : (AveragingBuffer.new 2).pushAll [1, 2]
      = ⟨[1, 2], 2, 3⟩ := by decide
  refine ⟨by rw [hstate], by rw [hstate]; rfl, ?_,
    ⟨3, 1, by norm_num, by norm_num, by norm_num⟩, by norm_num⟩
  rw [hstate]
  unfold avg
  norm_num

/-- C10 (amended): for `AveragingBuffer::new(c)` with `c ≥ 1`, after any
sequence of pushes the buffer retains exactly the `min c n` most recently
pushed values in order, and `avg()` returns `None` exactly when nothing was
pushed.  Otherwise it returns `Some` of the `f64` division of the retained
values' sum by their count — not the integer floor division — where, for
any division satisfying the IEEE 754 exactness contract `IsF64Div`,
provided the total of the pushed values stays below `2 ^ 53` (saturating
arithmetic exact, sum converts to `f64` exactly), the count bound `c` is
below `2 ^ 53`, and the true quotient is exactly representable in binary64,
the result is exactly the true quotient. -/
theorem window_average (fdiv : Nat → Nat → ℚ) (c : Nat) (xs : List Nat)
    (hdiv : IsF64Div fdiv) (hc : 1 ≤ c) (hc53 : c < 2 ^ 53)
    (hsum : xs.sum < 2 ^ 53) :
    ((AveragingBuffer.new c).pushAll xs).buffer = xs.drop (xs.length - c) ∧
      ((AveragingBuffer.new c).pushAll xs).buffer.length = min c xs.length ∧
      (((AveragingBuffer.new c).pushAll xs).avg fdiv = none ↔ xs = []) ∧
      (xs ≠ [] →
        reprF64 (((xs.drop (xs.length - c)).sum : ℚ)
            / ((min c xs.length : Nat) : ℚ)) →
        ((AveragingBuffer.new c).pushAll xs).avg fdiv
          = some (((xs.drop (xs.length - c)).sum : ℚ)
              / ((min c xs.length : Nat) : ℚ))) := by
  have hsum64 : xs.sum ≤ usizeMax := by
    have h253 : (2 : Nat) ^ 53 ≤ usizeMax := by norm_num [usizeMax]
    omega
  obtain ⟨hcap, hbuf, hsm⟩ := window_invariant c hc xs hsum64
  have hlen : ((AveragingBuffer.new c).pushAll xs).buffer.length
      = min c xs.length := by
    rw [hbuf, List.length_drop]
    rcases le_or_lt c xs.length with h | h
    · rw [Nat.min_eq_left h]
      omega
    · rw [Nat.min_eq_right (le_of_lt h)]
      omega
  refine ⟨hbuf, hlen, ?_, ?_⟩
  · constructor
    · intro hnone
      unfold avg at hnone
      split_ifs at hnone with hemp
      · have h0 : ((AveragingBuffer.new c).pushAll xs).buffer.length = 0 := by
          rw [List.length_eq_zero]
          exact List.isEmpty_iff.mp hemp
        rw [hlen] at h0
        have hxs0 : xs.length = 0 := by
          rcases le_or_lt c xs.length with h | h
          · rw [Nat.min_eq_left h] at h0
            omega
          · rw [Nat.min_eq_right (le_of_lt h)] at h0
            exact h0
        exact List.length_eq_zero.mp hxs0
    · intro hnil
      subst hnil
      rfl
  · intro hne hrep
    have hemp : ¬ ((AveragingBuffer.new c).pushAll xs).buffer.isEmpty = true := by
      rw [List.isEmpty_iff, ← List.length_eq_zero, hlen]
      have hpos : 0 < xs.length := List.length_pos.mpr hne
      have : 0 < min c xs.length := lt_min_iff.mpr ⟨hc, hpos⟩
      omega
    have hws : (xs.drop (xs.length - c)).sum < 2 ^ 53 :=
      lt_of_le_of_lt (sum_drop_le xs (xs.length - c)) hsum
    have hcnt : min c xs.length < 2 ^ 53 :=
      lt_of_le_of_lt (min_le_left _ _) hc53
    unfold avg
    rw [if_neg hemp, hsm, hlen, hdiv _ _ hws hcnt hrep]

theorem window_average_witness :
    ((AveragingBuffer.new 3).pushAll [1, 2, 3, 4]).buffer = [2, 3, 4] ∧
      ((AveragingBuffer.new 3).pushAll [1, 2, 3, 4]).avg
          (fun a b => (a : ℚ) / (b : ℚ))
        = some ((9 : ℚ) / 3) := by
  have h := window_average (fun a b => (a : ℚ) / (b : ℚ)) 3 [1, 2, 3, 4]
    (fun a b _ _ _ => rfl) (by norm_num) (by norm_num) (by norm_num)
  have e1 : (List.drop ([1, 2, 3, 4].length - 3) [1, 2, 3, 4]).sum = 9 := rfl
  have e2 : min 3 [1, 2, 3, 4].length = 3 := rfl
  refine ⟨by rw [h.1]; rfl, ?_⟩
  have h4 := h.2.2.2 (by simp)
    (by rw [e1, e2]; exact ⟨3, 0, by norm_num, by norm_num, by norm_num⟩)
  rw [h4, e1, e2]
  norm_num

end AveragingBuffer

end CutoffCommon
